import Mathlib

set_option maxRecDepth 8192

/-!
Shallow embedding of the Argos_public ingestion scripts
(`osint-ingestion/scripts/cluster.py`, `osint-ingestion/scripts/vector_worker.py`,
`osint-ingestion/lib/translation/translate.py`) and proofs about them.

External library calls (HDBSCAN, PCA, StandardScaler, the sentence-transformer
model, langdetect, argostranslate, psycopg2) are modelled as oracle parameters:
the repository's own code is embedded faithfully, and each theorem quantifies
over the oracle (or assumes only its documented behaviour).  Python floats are
modelled as rationals; a Python call that raises an exception is modelled as an
`Option`-valued oracle returning `none`.
-/

/- ------------------------------------------------------------------ -/
/- lib/translation/translate.py                                       -/
/- ------------------------------------------------------------------ -/

/-- The `lang_map` dictionary inside `detect_language`
(langdetect codes mapped to argostranslate codes). -/
def lang_map : List (String × String) :=
  [("en", "en"), ("es", "es"), ("fr", "fr"), ("de", "de"), ("ru", "ru"),
   ("ar", "ar"), ("zh-cn", "zh"), ("zh-tw", "zh"), ("ja", "ja"), ("ko", "ko"),
   ("pt", "pt"), ("it", "it")]

/-- `detect_language(text)`: `detectO` models the `langdetect.detect` call,
`none` modelling a raised `LangDetectException`.  On success the detected code
is passed through `lang_map.get(lang, lang)`; on failure `'en'` is returned. -/
def detect_language (detectO : String → Option String) (text : String) : String :=
  match detectO text with
  | none => "en"
  | some lang => (lang_map.lookup lang).getD lang

/-- `translate_to_english(text, source_lang)`: `transO` models
`argostranslate.translate.translate(text, source_lang, 'en')`, `none`
modelling a raised exception (caught, returning the original text). -/
def translate_to_english (transO : String → String → Option String)
    (text source_lang : String) : String × Bool :=
  if source_lang = "en" then (text, false)
  else
    match transO text source_lang with
    | some translated => (translated, true)
    | none => (text, false)

/-- Result dictionary of `detect_and_translate`. -/
structure TranslateResult where
  original_text : String
  translated_text : String
  original_language : String
  translated : Bool
  deriving Repr, DecidableEq

/-- `detect_and_translate(text)`. -/
def detect_and_translate (detectO : String → Option String)
    (transO : String → String → Option String) (text : String) : TranslateResult :=
  let source_lang := detect_language detectO text
  let r := translate_to_english transO text source_lang
  ⟨text, r.1, source_lang, r.2⟩

/- ------------------------------------------------------------------ -/
/- scripts/cluster.py : cluster_events                                -/
/- ------------------------------------------------------------------ -/

/-- `cluster_events(features, min_cluster_size, min_samples, metric,
cluster_selection_epsilon)`.  `hdbscanO` models the
`hdbscan.HDBSCAN(...).fit_predict` call (it receives every parameter the
script passes to the library).  The feature matrix is a list of rows, so
`features.shape[0]` is `features.length`. -/
def cluster_events (hdbscanO : Nat → Nat → String → Rat → List (List Rat) → List Int)
    (features : List (List Rat)) (min_cluster_size min_samples : Nat)
    (metric : String) (cluster_selection_epsilon : Rat) : List Int :=
  if features.length < min_cluster_size then
    List.replicate features.length (-1)
  else
    hdbscanO min_cluster_size min_samples metric cluster_selection_epsilon features

/- ------------------------------------------------------------------ -/
/- scripts/vector_worker.py : generate_embedding                      -/
/- ------------------------------------------------------------------ -/

/-- The padding step of `VectorWorker.generate_embedding`:
`padded = np.zeros(768); padded[:len(e)] = e` when `len(e) < 768`,
otherwise the embedding is returned untouched. -/
def pad768 (e : List Rat) : List Rat :=
  if e.length < 768 then e ++ List.replicate (768 - e.length) 0 else e

/-- `VectorWorker.generate_embedding(text)`.  `encode` models
`self.model.encode(text, convert_to_numpy=True)`, with `none` modelling a
raised exception (propagated to the caller).  Empty text short-circuits to the
768-dimensional zero vector. -/
def generate_embedding (encode : String → Option (List Rat)) (text : String) :
    Option (List Rat) :=
  if text = "" then some (List.replicate 768 0)
  else (encode text).map pad768

theorem pad768_eq (e : List Rat) :
    pad768 e = e ++ List.replicate (768 - e.length) 0 := by
  unfold pad768
  by_cases h : e.length < 768
  · simp [h]
  · have : 768 - e.length = 0 := Nat.sub_eq_zero_of_le (Nat.le_of_not_lt h)
    simp [h, this]

theorem pad768_length (e : List Rat) (h : e.length ≤ 768) :
    (pad768 e).length = 768 := by
  rw [pad768_eq]
  simp [Nat.add_sub_cancel' h]

/- ------------------------------------------------------------------ -/
/- Claim theorems (translation / cluster_events / generate_embedding) -/
/- ------------------------------------------------------------------ -/

/-- Claim C1: whenever the number of input samples is strictly below the
configured minimum cluster size, `cluster_events` returns a list of length
equal to the sample count with every entry `-1`, and the result is the same
for any two HDBSCAN oracles — i.e. the clustering routine is not invoked. -/
theorem c1_cluster_events_degenerate
    (o1 o2 : Nat → Nat → String → Rat → List (List Rat) → List Int)
    (features : List (List Rat)) (min_cluster_size min_samples : Nat)
    (metric : String) (eps : Rat)
    (h : features.length < min_cluster_size) :
    cluster_events o1 features min_cluster_size min_samples metric eps =
      List.replicate features.length (-1) ∧
    cluster_events o1 features min_cluster_size min_samples metric eps =
      cluster_events o2 features min_cluster_size min_samples metric eps := by
  constructor <;> simp [cluster_events, h]

/-- Concrete witness for C1: one sample, minimum cluster size 2. -/
theorem c1_cluster_events_degenerate_witness :
    ([[ (1 : Rat) ]] : List (List Rat)).length < 2 ∧
    (cluster_events (fun _ _ _ _ _ => [7]) [[(1 : Rat)]] 2 1 "euclidean" (3/10) =
        List.replicate 1 (-1) ∧
      cluster_events (fun _ _ _ _ _ => [7]) [[(1 : Rat)]] 2 1 "euclidean" (3/10) =
        cluster_events (fun _ _ _ _ _ => [8]) [[(1 : Rat)]] 2 1 "euclidean" (3/10)) :=
  ⟨by decide,
   c1_cluster_events_degenerate (fun _ _ _ _ _ => [7]) (fun _ _ _ _ _ => [8])
     [[(1 : Rat)]] 2 1 "euclidean" (3/10) (by decide)⟩

/-- Claim C4: for every input text, `generate_embedding` returns a list of
exactly 768 numbers — the zero vector for empty text, and otherwise the model
output zero-padded up to 768 dimensions.  The hypothesis that the model output
has at most 768 entries reflects the wrapped sentence-transformer
(`all-MiniLM-L6-v2` emits 384-dimensional vectors). -/
theorem c4_generate_embedding_768
    (encode : String → Option (List Rat)) (text : String) (emb : List Rat)
    (he : encode text = some emb) (hlen : emb.length ≤ 768) :
    generate_embedding encode text =
      some (if text = "" then List.replicate 768 0
            else emb ++ List.replicate (768 - emb.length) 0) ∧
    ∀ out, generate_embedding encode text = some out → out.length = 768 := by
  constructor
  · by_cases h : text = ""
    · simp [generate_embedding, h]
    · simp [generate_embedding, h, he, pad768_eq]
  · intro out hout
    by_cases h : text = ""
    · simp [generate_embedding, h] at hout
      simp [← hout]
    · simp [generate_embedding, h, he] at hout
      rw [← hout]
      exact pad768_length emb hlen

/-- Concrete witness for C4: a 3-dimensional model output on the text "war",
and the empty text. -/
theorem c4_generate_embedding_768_witness :
    ((fun s => if s = "" then some [] else some [(1 : Rat), 2, 3]) "war" =
        some [(1 : Rat), 2, 3] ∧ ([(1 : Rat), 2, 3]).length ≤ 768) ∧
    (generate_embedding (fun s => if s = "" then some [] else some [(1 : Rat), 2, 3]) "war" =
      some (if "war" = "" then List.replicate 768 0
            else [(1 : Rat), 2, 3] ++ List.replicate (768 - ([(1 : Rat), 2, 3]).length) 0) ∧
     ∀ out, generate_embedding (fun s => if s = "" then some [] else some [(1 : Rat), 2, 3]) "war" =
        some out → out.length = 768) :=
  ⟨⟨by decide, by decide⟩,
   c4_generate_embedding_768 (fun s => if s = "" then some [] else some [(1 : Rat), 2, 3])
     "war" [(1 : Rat), 2, 3] (by decide) (by decide)⟩

/-- Claim C7: for source language `'en'`, `translate_to_english` returns the
original text with a `translated` flag of `false`, and the result does not
depend on the translation oracle — i.e. the engine is not invoked. -/
theorem c7_translate_english_noop
    (transO transO2 : String → String → Option String) (text : String) :
    translate_to_english transO text "en" = (text, false) ∧
    translate_to_english transO text "en" = translate_to_english transO2 text "en" := by
  constructor <;> simp [translate_to_english]

/-- Claim C8: when language detection raises, `detect_language` returns
`'en'`, and the overall `detect_and_translate` result treats the text as
English: original text returned untranslated with language `'en'` and flag
`false`. -/
theorem c8_detect_failure_defaults_english
    (detectO : String → Option String) (transO : String → String → Option String)
    (text : String) (h : detectO text = none) :
    detect_language detectO text = "en" ∧
    detect_and_translate detectO transO text = ⟨text, text, "en", false⟩ := by
  have hd : detect_language detectO text = "en" := by
    simp [detect_language, h]
  refine ⟨hd, ?_⟩
  simp [detect_and_translate, hd, translate_to_english]

/-- Concrete witness for C8: a detection oracle that always raises. -/
theorem c8_detect_failure_defaults_english_witness :
    ((fun _ : String => (none : Option String)) "bonjour" = none) ∧
    (detect_language (fun _ => none) "bonjour" = "en" ∧
     detect_and_translate (fun _ => none) (fun t _ => some (t ++ "!")) "bonjour" =
       ⟨"bonjour", "bonjour", "en", false⟩) :=
  ⟨rfl,
   c8_detect_failure_defaults_english (fun _ => none) (fun t _ => some (t ++ "!"))
     "bonjour" rfl⟩

/- ------------------------------------------------------------------ -/
/- scripts/cluster.py : format_cluster_results                        -/
/- ------------------------------------------------------------------ -/

/-- One entry of the `clusters` list built by `format_cluster_results`. -/
structure ClusterOut (α : Type) where
  cluster_id : Int
  event_ids : List α
  size : Nat
  deriving DecidableEq

/-- The dictionary returned by `format_cluster_results`. -/
structure FormatResult (α : Type) where
  clusters : List (ClusterOut α)
  clustered_count : Nat
  noise_count : Nat
  deriving DecidableEq

/-- Insertion into the `clusters` dict of `format_cluster_results`:
`if label not in clusters: clusters[label] = []` followed by
`clusters[label].append(event_id)`, on an insertion-ordered association
list (Python dicts preserve insertion order). -/
def upsert {α : Type} (m : List (Int × List α)) (label : Int) (eid : α) :
    List (Int × List α) :=
  match m with
  | [] => [(label, [eid])]
  | (k, v) :: rest =>
    if k = label then (k, v ++ [eid]) :: rest else (k, v) :: upsert rest label eid

/-- The main loop of `format_cluster_results` over `zip(event_ids, labels)`,
threading the `clusters` dict and both counters. -/
def fcrGo {α : Type} (pairs : List (α × Int)) (acc : List (Int × List α))
    (cc nc : Nat) : List (Int × List α) × Nat × Nat :=
  match pairs with
  | [] => (acc, cc, nc)
  | (eid, label) :: rest =>
    if label = -1 then fcrGo rest acc cc (nc + 1)
    else fcrGo rest (upsert acc label eid) (cc + 1) nc

/-- `format_cluster_results(event_ids, labels)`. -/
def format_cluster_results {α : Type} (event_ids : List α) (labels : List Int) :
    FormatResult α :=
  let r := fcrGo (event_ids.zip labels) [] 0 0
  ⟨r.1.map (fun p => ⟨p.1, p.2, p.2.length⟩), r.2.1, r.2.2⟩

/-- First-match lookup in the association list modelling the Python dict. -/
def alookup {α : Type} (m : List (Int × List α)) (l : Int) : Option (List α) :=
  match m with
  | [] => none
  | (k, v) :: rest => if k = l then some v else alookup rest l

/-- Total number of identifiers stored in the dict. -/
def totalLen {α : Type} (m : List (Int × List α)) : Nat :=
  (m.map (fun p => p.2.length)).sum

theorem alookup_upsert_self {α : Type} (m : List (Int × List α)) (l : Int) (e : α) :
    alookup (upsert m l e) l = some ((alookup m l).getD [] ++ [e]) := by
  induction m with
  | nil => simp [upsert, alookup]
  | cons hd tl ih =>
    obtain ⟨k, v⟩ := hd
    by_cases hk : k = l
    · simp [upsert, alookup, hk]
    · simp [upsert, alookup, hk, ih]

theorem alookup_upsert_other {α : Type} (m : List (Int × List α)) (l l' : Int)
    (e : α) (h : l' ≠ l) : alookup (upsert m l e) l' = alookup m l' := by
  have h2 : ¬ l = l' := fun hh => h hh.symm
  induction m with
  | nil => simp [upsert, alookup, h2]
  | cons hd tl ih =>
    obtain ⟨k, v⟩ := hd
    by_cases hk : k = l
    · subst hk
      simp [upsert, alookup, h2]
    · by_cases hk' : k = l'
      · simp [upsert, alookup, hk, hk', h]
      · simp [upsert, alookup, hk, hk', ih]

theorem mem_keys_upsert {α : Type} (m : List (Int × List α)) (l k : Int) (e : α)
    (h : k ∈ (upsert m l e).map Prod.fst) : k ∈ m.map Prod.fst ∨ k = l := by
  induction m with
  | nil => simp [upsert] at h; simp [h]
  | cons hd tl ih =>
    obtain ⟨k0, v⟩ := hd
    by_cases hk : k0 = l
    · simp [upsert, hk] at h
      rcases h with h | h
      · simp [h, hk]
      · left; simp [h]
    · simp [upsert, hk] at h
      rcases h with h | h
      · left; simp [h]
      · rcases ih (by simpa using h) with h2 | h2
        · left; simp [h2]
        · right; exact h2

theorem keys_upsert {α : Type} (m : List (Int × List α)) (l : Int) (e : α) :
    (upsert m l e).map Prod.fst =
      if l ∈ m.map Prod.fst then m.map Prod.fst else m.map Prod.fst ++ [l] := by
  induction m with
  | nil => simp [upsert]
  | cons hd tl ih =>
    obtain ⟨k, v⟩ := hd
    by_cases hk : k = l
    · simp [upsert, hk]
    · have hne : ¬ l = k := fun hh => hk hh.symm
      by_cases hmem : l ∈ tl.map Prod.fst
      · simp [upsert, hk, hmem, ih, hne]
      · simp [upsert, hk, hmem, ih, hne]

theorem nodup_keys_upsert {α : Type} (m : List (Int × List α)) (l : Int) (e : α)
    (h : (m.map Prod.fst).Nodup) : ((upsert m l e).map Prod.fst).Nodup := by
  rw [keys_upsert]
  by_cases hmem : l ∈ m.map Prod.fst
  · simp [hmem, h]
  · simp [hmem, List.nodup_append, h]

theorem mem_of_alookup {α : Type} (m : List (Int × List α)) (l : Int)
    (v : List α) (h : alookup m l = some v) : (l, v) ∈ m := by
  induction m with
  | nil => simp [alookup] at h
  | cons hd tl ih =>
    obtain ⟨k, w⟩ := hd
    by_cases hk : k = l
    · subst hk
      simp [alookup] at h
      simp [h]
    · simp [alookup, hk] at h
      simp [ih h]

theorem alookup_of_mem_nodup {α : Type} (m : List (Int × List α)) (l : Int)
    (v : List α) (hn : (m.map Prod.fst).Nodup) (h : (l, v) ∈ m) :
    alookup m l = some v := by
  induction m with
  | nil => simp at h
  | cons hd tl ih =>
    obtain ⟨k, w⟩ := hd
    rw [List.map_cons, List.nodup_cons] at hn
    obtain ⟨hk_not, hn'⟩ := hn
    rcases List.mem_cons.mp h with h' | h'
    · injection h' with h1 h2
      subst h1; subst h2
      simp [alookup]
    · have hk : ¬ k = l := by
        intro hkl
        subst hkl
        exact hk_not (List.mem_map.mpr ⟨(k, v), h', rfl⟩)
      simp [alookup, hk, ih hn' h']

theorem totalLen_upsert {α : Type} (m : List (Int × List α)) (l : Int) (e : α) :
    totalLen (upsert m l e) = totalLen m + 1 := by
  induction m with
  | nil => simp [upsert, totalLen]
  | cons hd tl ih =>
    obtain ⟨k, v⟩ := hd
    by_cases hk : k = l
    · simp [upsert, hk, totalLen]
      omega
    · simp [upsert, hk, totalLen] at ih ⊢
      omega

/-- Combination of a dict entry already accumulated with the identifiers a
run of the loop appends to it. -/
def combineAcc {α : Type} (o : Option (List α)) (xs : List α) : Option (List α) :=
  match o, xs with
  | none, [] => none
  | none, x :: rest => some (x :: rest)
  | some v, xs => some (v ++ xs)

theorem combineAcc_nil {α : Type} (o : Option (List α)) : combineAcc o [] = o := by
  cases o <;> simp [combineAcc]

theorem combineAcc_cons {α : Type} (o : Option (List α)) (x : α) (xs : List α) :
    combineAcc o (x :: xs) = some (o.getD [] ++ x :: xs) := by
  cases o <;> simp [combineAcc]

theorem combineAcc_some {α : Type} (v xs : List α) :
    combineAcc (some v) xs = some (v ++ xs) := rfl

theorem combineAcc_none_of_ne {α : Type} (xs : List α) (h : xs ≠ []) :
    combineAcc none xs = some xs := by
  cases xs with
  | nil => exact absurd rfl h
  | cons x rest => simp [combineAcc]

theorem fcr_counts {α : Type} (pairs : List (α × Int)) (acc : List (Int × List α))
    (cc nc : Nat) :
    (fcrGo pairs acc cc nc).2.1 + (fcrGo pairs acc cc nc).2.2 =
      cc + nc + pairs.length := by
  induction pairs generalizing acc cc nc with
  | nil => simp [fcrGo]
  | cons hd tl ih =>
    obtain ⟨e, lab⟩ := hd
    by_cases hl : lab = -1
    · simp [fcrGo, hl, ih]
      try omega
    · simp [fcrGo, hl, ih]
      try omega

theorem fcr_noise {α : Type} (pairs : List (α × Int)) (acc : List (Int × List α))
    (cc nc : Nat) :
    (fcrGo pairs acc cc nc).2.2 =
      nc + (pairs.filter (fun p => p.2 = -1)).length := by
  induction pairs generalizing acc cc nc with
  | nil => simp [fcrGo]
  | cons hd tl ih =>
    obtain ⟨e, lab⟩ := hd
    by_cases hl : lab = -1
    · simp [fcrGo, hl, ih]
      try omega
    · simp [fcrGo, hl, ih]
      try omega

theorem fcr_total {α : Type} (pairs : List (α × Int)) (acc : List (Int × List α))
    (cc nc : Nat) :
    totalLen (fcrGo pairs acc cc nc).1 + cc =
      totalLen acc + (fcrGo pairs acc cc nc).2.1 := by
  induction pairs generalizing acc cc nc with
  | nil => simp [fcrGo]; try omega
  | cons hd tl ih =>
    obtain ⟨e, lab⟩ := hd
    by_cases hl : lab = -1
    · simp [fcrGo, hl, ih]
    · have h2 := ih (upsert acc lab e) (cc + 1) nc
      rw [totalLen_upsert] at h2
      simp [fcrGo, hl]
      omega

theorem fcr_lookup {α : Type} (pairs : List (α × Int)) (acc : List (Int × List α))
    (cc nc : Nat) (l : Int) (hl : l ≠ -1) :
    alookup (fcrGo pairs acc cc nc).1 l =
      combineAcc (alookup acc l) ((pairs.filter (fun p => p.2 = l)).map Prod.fst) := by
  induction pairs generalizing acc cc nc with
  | nil => simp [fcrGo, combineAcc_nil]
  | cons hd tl ih =>
    obtain ⟨e, lab⟩ := hd
    by_cases hlab : lab = -1
    · subst hlab
      have hne : ¬ ((-1 : Int) = l) := fun hh => hl hh.symm
      simp [fcrGo, hne, ih]
    · by_cases heq : lab = l
      · subst heq
        have h1 := ih (upsert acc lab e) (cc + 1) nc
        rw [alookup_upsert_self] at h1
        simp only [fcrGo, if_neg hlab]
        rw [h1, combineAcc_some]
        simp [combineAcc_cons, List.append_assoc]
      · have hne : l ≠ lab := fun hh => heq hh.symm
        simp [fcrGo, hlab, heq, ih, alookup_upsert_other acc lab l e hne]

theorem fcr_keys_ne {α : Type} (pairs : List (α × Int)) (acc : List (Int × List α))
    (cc nc : Nat) (h : (-1 : Int) ∉ acc.map Prod.fst) :
    (-1 : Int) ∉ (fcrGo pairs acc cc nc).1.map Prod.fst := by
  induction pairs generalizing acc cc nc with
  | nil => simpa [fcrGo] using h
  | cons hd tl ih =>
    obtain ⟨e, lab⟩ := hd
    by_cases hlab : lab = -1
    · simp only [fcrGo, hlab, if_pos rfl]
      exact ih acc cc (nc + 1) h
    · simp only [fcrGo, hlab, if_neg hlab]
      apply ih
      intro hmem
      rcases mem_keys_upsert acc lab (-1) e hmem with h1 | h1
      · exact h h1
      · exact hlab h1.symm

theorem fcr_nodup {α : Type} (pairs : List (α × Int)) (acc : List (Int × List α))
    (cc nc : Nat) (h : (acc.map Prod.fst).Nodup) :
    ((fcrGo pairs acc cc nc).1.map Prod.fst).Nodup := by
  induction pairs generalizing acc cc nc with
  | nil => simpa [fcrGo] using h
  | cons hd tl ih =>
    obtain ⟨e, lab⟩ := hd
    by_cases hlab : lab = -1
    · simp only [fcrGo, hlab, if_pos rfl]
      exact ih acc cc (nc + 1) h
    · simp only [fcrGo, hlab, if_neg hlab]
      exact ih _ _ _ (nodup_keys_upsert acc lab e h)

theorem mem_clusters_iff {α : Type} (event_ids : List α) (labels : List Int)
    (c : ClusterOut α) :
    c ∈ (format_cluster_results event_ids labels).clusters ↔
      ∃ p ∈ (fcrGo (event_ids.zip labels) [] 0 0).1,
        (⟨p.1, p.2, p.2.length⟩ : ClusterOut α) = c := by
  show c ∈ ((fcrGo (event_ids.zip labels) [] 0 0).1.map
      (fun p => (⟨p.1, p.2, p.2.length⟩ : ClusterOut α))) ↔ _
  exact List.mem_map

/-- Claim C3: in the output of `format_cluster_results`, no cluster entry has
`cluster_id = -1`; `noise_count` counts exactly the pairs labelled `-1`; each
cluster entry's `event_ids` are exactly the identifiers of the pairs carrying
that (non-noise) label — so a pair labelled `-1` contributes to no cluster's
`event_ids` — and every non-noise pair is mapped into the entry for its
label. -/
theorem c3_format_cluster_results_noise_excluded {α : Type}
    (event_ids : List α) (labels : List Int) :
    (∀ c ∈ (format_cluster_results event_ids labels).clusters, c.cluster_id ≠ -1) ∧
    (format_cluster_results event_ids labels).noise_count =
      ((event_ids.zip labels).filter (fun p => p.2 = -1)).length ∧
    (∀ c ∈ (format_cluster_results event_ids labels).clusters,
      c.event_ids =
        ((event_ids.zip labels).filter (fun p => p.2 = c.cluster_id)).map Prod.fst) ∧
    (∀ p ∈ event_ids.zip labels, p.2 ≠ -1 →
      ∃ c ∈ (format_cluster_results event_ids labels).clusters,
        c.cluster_id = p.2 ∧ p.1 ∈ c.event_ids) := by
  have hkeys : (-1 : Int) ∉ (fcrGo (event_ids.zip labels) [] 0 0).1.map Prod.fst :=
    fcr_keys_ne _ [] 0 0 (by simp)
  have hnodup : ((fcrGo (event_ids.zip labels) [] 0 0).1.map Prod.fst).Nodup :=
    fcr_nodup _ [] 0 0 (by simp)
  refine ⟨?_, ?_, ?_, ?_⟩
  · intro c hc
    obtain ⟨p, hp, hpc⟩ := (mem_clusters_iff event_ids labels c).mp hc
    intro hid
    rw [← hpc] at hid
    exact hkeys (List.mem_map.mpr ⟨p, hp, hid⟩)
  · have h := fcr_noise (event_ids.zip labels) [] 0 0
    show (fcrGo (event_ids.zip labels) [] 0 0).2.2 = _
    simpa using h
  · intro c hc
    obtain ⟨p, hp, hpc⟩ := (mem_clusters_iff event_ids labels c).mp hc
    have hkne : p.1 ≠ -1 := by
      intro hh
      exact hkeys (List.mem_map.mpr ⟨p, hp, hh⟩)
    have hlook : alookup (fcrGo (event_ids.zip labels) [] 0 0).1 p.1 = some p.2 := by
      apply alookup_of_mem_nodup _ _ _ hnodup
      rcases p with ⟨k, v⟩
      exact hp
    rw [fcr_lookup (event_ids.zip labels) [] 0 0 p.1 hkne] at hlook
    have hnone : alookup ([] : List (Int × List α)) p.1 = none := rfl
    rw [hnone] at hlook
    subst hpc
    cases hfil : ((event_ids.zip labels).filter (fun q => q.2 = p.1)).map Prod.fst with
    | nil =>
      rw [hfil] at hlook
      simp [combineAcc] at hlook
    | cons x xs =>
      rw [hfil] at hlook
      simp [combineAcc] at hlook
      exact hlook.symm
  · intro p hp hne
    have hmemfil : p ∈ (event_ids.zip labels).filter (fun q => q.2 = p.2) :=
      List.mem_filter.mpr ⟨hp, by simp⟩
    have hmem1 : p.1 ∈ ((event_ids.zip labels).filter (fun q => q.2 = p.2)).map Prod.fst :=
      List.mem_map.mpr ⟨p, hmemfil, rfl⟩
    have hnn : ((event_ids.zip labels).filter (fun q => q.2 = p.2)).map Prod.fst ≠ [] :=
      List.ne_nil_of_mem hmem1
    have hlook : alookup (fcrGo (event_ids.zip labels) [] 0 0).1 p.2 =
        some (((event_ids.zip labels).filter (fun q => q.2 = p.2)).map Prod.fst) := by
      rw [fcr_lookup (event_ids.zip labels) [] 0 0 p.2 hne]
      exact combineAcc_none_of_ne _ hnn
    have hmem2 := mem_of_alookup _ _ _ hlook
    refine ⟨⟨p.2, ((event_ids.zip labels).filter (fun q => q.2 = p.2)).map Prod.fst,
      (((event_ids.zip labels).filter (fun q => q.2 = p.2)).map Prod.fst).length⟩,
      ?_, rfl, hmem1⟩
    exact (mem_clusters_iff event_ids labels _).mpr ⟨_, hmem2, rfl⟩

/-- Concrete witness for C3 (four events, one noise label). -/
theorem c3_format_cluster_results_noise_excluded_witness :
    (∀ c ∈ (format_cluster_results [10, 20, 30, 40] [0, -1, 0, 5]).clusters,
      c.cluster_id ≠ -1) ∧
    (format_cluster_results [10, 20, 30, 40] [0, -1, 0, 5]).noise_count =
      ((([10, 20, 30, 40] : List Nat).zip [0, -1, 0, 5]).filter
        (fun p => p.2 = -1)).length ∧
    (∀ c ∈ (format_cluster_results [10, 20, 30, 40] [0, -1, 0, 5]).clusters,
      c.event_ids =
        ((([10, 20, 30, 40] : List Nat).zip [0, -1, 0, 5]).filter
          (fun p => p.2 = c.cluster_id)).map Prod.fst) ∧
    (∀ p ∈ ([10, 20, 30, 40] : List Nat).zip [0, -1, 0, 5], p.2 ≠ -1 →
      ∃ c ∈ (format_cluster_results [10, 20, 30, 40] [0, -1, 0, 5]).clusters,
        c.cluster_id = p.2 ∧ p.1 ∈ c.event_ids) :=
  c3_format_cluster_results_noise_excluded [10, 20, 30, 40] [0, -1, 0, 5]

/-- Claim C10: `clustered_count + noise_count` equals the number of input
pairs, the sizes of the cluster entries sum to `clustered_count`, and each
entry's `size` is the length of its `event_ids`. -/
theorem c10_format_cluster_results_counts {α : Type}
    (event_ids : List α) (labels : List Int) :
    (format_cluster_results event_ids labels).clustered_count +
        (format_cluster_results event_ids labels).noise_count =
      (event_ids.zip labels).length ∧
    ((format_cluster_results event_ids labels).clusters.map (fun c => c.size)).sum =
      (format_cluster_results event_ids labels).clustered_count ∧
    (∀ c ∈ (format_cluster_results event_ids labels).clusters,
      c.size = c.event_ids.length) := by
  refine ⟨?_, ?_, ?_⟩
  · have h := fcr_counts (event_ids.zip labels) [] 0 0
    show (fcrGo (event_ids.zip labels) [] 0 0).2.1 +
      (fcrGo (event_ids.zip labels) [] 0 0).2.2 = _
    simpa using h
  · have ht := fcr_total (event_ids.zip labels) [] 0 0
    show (((fcrGo (event_ids.zip labels) [] 0 0).1.map
        (fun p => (⟨p.1, p.2, p.2.length⟩ : ClusterOut α))).map (fun c => c.size)).sum =
      (fcrGo (event_ids.zip labels) [] 0 0).2.1
    rw [List.map_map]
    have hcomp : ((fun (c : ClusterOut α) => c.size) ∘
        (fun p : Int × List α => (⟨p.1, p.2, p.2.length⟩ : ClusterOut α))) =
        fun p : Int × List α => p.2.length := rfl
    rw [hcomp]
    have h2 : totalLen (fcrGo (event_ids.zip labels) [] 0 0).1 =
        ((fcrGo (event_ids.zip labels) [] 0 0).1.map (fun p => p.2.length)).sum := rfl
    rw [← h2]
    simpa [totalLen] using ht
  · intro c hc
    obtain ⟨p, hp, hpc⟩ := (mem_clusters_iff event_ids labels c).mp hc
    rw [← hpc]

/-- Concrete witness for C10 (four events, one noise label). -/
theorem c10_format_cluster_results_counts_witness :
    (format_cluster_results [10, 20, 30, 40] [0, -1, 0, 5]).clustered_count +
        (format_cluster_results [10, 20, 30, 40] [0, -1, 0, 5]).noise_count =
      (([10, 20, 30, 40] : List Nat).zip [0, -1, 0, 5]).length ∧
    ((format_cluster_results [10, 20, 30, 40] [0, -1, 0, 5]).clusters.map
      (fun c => c.size)).sum =
      (format_cluster_results [10, 20, 30, 40] [0, -1, 0, 5]).clustered_count ∧
    (∀ c ∈ (format_cluster_results [10, 20, 30, 40] [0, -1, 0, 5]).clusters,
      c.size = c.event_ids.length) :=
  c10_format_cluster_results_counts [10, 20, 30, 40] [0, -1, 0, 5]

/- ------------------------------------------------------------------ -/
/- scripts/cluster.py : prepare_features                              -/
/- ------------------------------------------------------------------ -/

/-- The `data` dict passed to `prepare_features`: `data['vectors']` and the
optional `data['features']` key (`none` models an absent key). -/
structure ClusterData where
  vectors : List (List Rat)
  features : Option (List (List Rat))
  deriving DecidableEq

/-- Elementwise scalar multiplication of a matrix, `m * c` in numpy. -/
def smulRows (c : Rat) (m : List (List Rat)) : List (List Rat) :=
  m.map (fun row => row.map (fun x => x * c))

/-- `np.hstack([a, b])` on row-aligned matrices. -/
def hstack (a b : List (List Rat)) : List (List Rat) :=
  List.zipWith (fun r s => r ++ s) a b

/-- Lines 24-35 of `prepare_features`: if `'features' in data` and
`len(data['features']) > 0`, scale the features with the scaler oracle
(`StandardScaler().fit_transform`, applied to the features alone) and
concatenate `vectors * 0.8` with `features_scaled * 0.2`; otherwise the
vectors are used as-is. -/
def assembleFeatures (scalerO : List (List Rat) → List (List Rat))
    (data : ClusterData) : List (List Rat) :=
  match data.features with
  | some f =>
    if f.length > 0 then
      hstack (smulRows (0.8 : Rat) data.vectors) (smulRows (0.2 : Rat) (scalerO f))
    else data.vectors
  | none => data.vectors

/-- The PCA gate on line 38 of `cluster.py`:
`use_pca and combined.shape[0] > n_components`. -/
def pcaApplied (use_pca : Bool) (combined : List (List Rat)) (n_components : Nat) :
    Bool :=
  use_pca && decide (combined.length > n_components)

/-- `prepare_features(data, use_pca=True, n_components=50)`.  `pcaO` models
`PCA(n_components=n_components, random_state=42).fit_transform`; its
arguments are the random seed, the component count, and the data, exactly as
the script passes them. -/
def prepare_features (scalerO : List (List Rat) → List (List Rat))
    (pcaO : Nat → Nat → List (List Rat) → List (List Rat))
    (data : ClusterData) (use_pca : Bool) (n_components : Nat) :
    List (List Rat) :=
  let combined := assembleFeatures scalerO data
  if pcaApplied use_pca combined n_components then pcaO 42 n_components combined
  else combined

/-- `combined.shape[1]`: the feature (column) count of the matrix. -/
def numCols (m : List (List Rat)) : Nat := (m.headD []).length

/-- Claim C9: with a non-empty auxiliary feature matrix, the assembled rows
are the horizontal concatenation of the embedding scaled by 0.8 with the
(independently) standardized features scaled by 0.2; with the key absent or
empty, the embedding vectors are used unweighted; and without PCA the
prepared features are exactly that concatenation. -/
theorem c9_prepare_features_weights
    (scalerO : List (List Rat) → List (List Rat))
    (pcaO : Nat → Nat → List (List Rat) → List (List Rat))
    (vectors f : List (List Rat)) (n : Nat) (hf : f ≠ []) :
    assembleFeatures scalerO ⟨vectors, some f⟩ =
      hstack (smulRows (0.8 : Rat) vectors) (smulRows (0.2 : Rat) (scalerO f)) ∧
    assembleFeatures scalerO ⟨vectors, none⟩ = vectors ∧
    assembleFeatures scalerO ⟨vectors, some []⟩ = vectors ∧
    prepare_features scalerO pcaO ⟨vectors, some f⟩ false n =
      hstack (smulRows (0.8 : Rat) vectors) (smulRows (0.2 : Rat) (scalerO f)) := by
  have hlen : f.length > 0 := List.length_pos.mpr hf
  refine ⟨?_, rfl, rfl, ?_⟩
  · simp [assembleFeatures, hlen]
  · simp [prepare_features, pcaApplied, assembleFeatures, hlen]

/-- Concrete witness for C9: one embedding row and one auxiliary feature row,
identity scaler. -/
theorem c9_prepare_features_weights_witness :
    (([[ (3 : Rat) ]] : List (List Rat)) ≠ []) ∧
    (assembleFeatures id ⟨[[(1 : Rat), 2]], some [[(3 : Rat)]]⟩ =
      hstack (smulRows (0.8 : Rat) [[(1 : Rat), 2]])
        (smulRows (0.2 : Rat) (id [[(3 : Rat)]])) ∧
    assembleFeatures id ⟨[[(1 : Rat), 2]], none⟩ = [[(1 : Rat), 2]] ∧
    assembleFeatures id ⟨[[(1 : Rat), 2]], some []⟩ = [[(1 : Rat), 2]] ∧
    prepare_features id (fun _ _ m => m) ⟨[[(1 : Rat), 2]], some [[(3 : Rat)]]⟩ false 50 =
      hstack (smulRows (0.8 : Rat) [[(1 : Rat), 2]])
        (smulRows (0.2 : Rat) (id [[(3 : Rat)]]))) :=
  ⟨by decide,
   c9_prepare_features_weights id (fun _ _ m => m) [[(1 : Rat), 2]] [[(3 : Rat)]] 50
     (by decide)⟩

/-- Counterexample to claim C2 as stated: with three one-dimensional samples
and `n_components = 2`, the code applies dimensionality reduction (the gate
only checks the sample count) although the combined feature count (1) does
not exceed the component count (2) — two different PCA oracles give
different outputs, so the reduction is invoked. -/
theorem c2_pca_condition_counterexample :
    pcaApplied true [[(1 : Rat)], [2], [3]] 2 = true ∧
    ¬ (numCols [[(1 : Rat)], [2], [3]] > 2) ∧
    prepare_features id (fun _ _ _ => [[(0 : Rat)]])
        ⟨[[(1 : Rat)], [2], [3]], none⟩ true 2 ≠
      prepare_features id (fun _ _ _ => [[(1 : Rat)]])
        ⟨[[(1 : Rat)], [2], [3]], none⟩ true 2 :=
  ⟨by decide, by decide, by decide⟩

/-- Claim C2 as amended: dimensionality reduction is applied iff PCA is
requested and the sample count exceeds the configured component count (the
code never checks the feature count); when applied, the assembled data is
passed to the projection with the configured component count and the fixed
random seed 42, and — given the library's guarantee that its output rows
have that many components — every output row has exactly `n` components. -/
theorem c2_pca_condition_amended
    (scalerO : List (List Rat) → List (List Rat))
    (pcaO : Nat → Nat → List (List Rat) → List (List Rat))
    (data : ClusterData) (use_pca : Bool) (n : Nat) :
    (pcaApplied use_pca (assembleFeatures scalerO data) n = true ↔
      use_pca = true ∧ (assembleFeatures scalerO data).length > n) ∧
    (pcaApplied use_pca (assembleFeatures scalerO data) n = true →
      prepare_features scalerO pcaO data use_pca n =
        pcaO 42 n (assembleFeatures scalerO data)) ∧
    (pcaApplied use_pca (assembleFeatures scalerO data) n = false →
      prepare_features scalerO pcaO data use_pca n = assembleFeatures scalerO data) ∧
    ((∀ r ∈ pcaO 42 n (assembleFeatures scalerO data), r.length = n) →
      pcaApplied use_pca (assembleFeatures scalerO data) n = true →
      ∀ r ∈ prepare_features scalerO pcaO data use_pca n, r.length = n) := by
  refine ⟨?_, ?_, ?_, ?_⟩
  · simp [pcaApplied]
  · intro h
    simp [prepare_features, h]
  · intro h
    simp [prepare_features, h]
  · intro hlib h r hr
    rw [prepare_features] at hr
    simp only [h, if_pos] at hr
    exact hlib r hr

/-- Concrete witness for C2's amended statement (three samples, two
components, a PCA oracle emitting two-component rows). -/
theorem c2_pca_condition_amended_witness :
    (pcaApplied true
        (assembleFeatures id ⟨[[(1 : Rat)], [2], [3]], none⟩) 2 = true ↔
      true = true ∧ (assembleFeatures id ⟨[[(1 : Rat)], [2], [3]], none⟩).length > 2) ∧
    (pcaApplied true (assembleFeatures id ⟨[[(1 : Rat)], [2], [3]], none⟩) 2 = true →
      prepare_features id (fun _ _ m => m.map (fun _ => [(0 : Rat), 0]))
          ⟨[[(1 : Rat)], [2], [3]], none⟩ true 2 =
        (fun _ _ m => m.map (fun _ => [(0 : Rat), 0])) 42 2
          (assembleFeatures id ⟨[[(1 : Rat)], [2], [3]], none⟩)) ∧
    (pcaApplied true (assembleFeatures id ⟨[[(1 : Rat)], [2], [3]], none⟩) 2 = false →
      prepare_features id (fun _ _ m => m.map (fun _ => [(0 : Rat), 0]))
          ⟨[[(1 : Rat)], [2], [3]], none⟩ true 2 =
        assembleFeatures id ⟨[[(1 : Rat)], [2], [3]], none⟩) ∧
    ((∀ r ∈ (fun _ _ m => m.map (fun _ => [(0 : Rat), 0])) 42 2
        (assembleFeatures id ⟨[[(1 : Rat)], [2], [3]], none⟩), r.length = 2) →
      pcaApplied true (assembleFeatures id ⟨[[(1 : Rat)], [2], [3]], none⟩) 2 = true →
      ∀ r ∈ prepare_features id (fun _ _ m => m.map (fun _ => [(0 : Rat), 0]))
          ⟨[[(1 : Rat)], [2], [3]], none⟩ true 2, r.length = 2) :=
  c2_pca_condition_amended id (fun _ _ m => m.map (fun _ => [(0 : Rat), 0]))
    ⟨[[(1 : Rat)], [2], [3]], none⟩ true 2

/- ------------------------------------------------------------------ -/
/- scripts/vector_worker.py : per-event processing                    -/
/- ------------------------------------------------------------------ -/

/-- One row of the external `events` table: the text columns
`process_event_embedding` reads and the `embedding` column it writes
(`updated_at` carries no information relevant to the claims and is omitted). -/
structure EventRow where
  enhanced_headline : String
  summary : String
  primary_actors : Option (List String)
  location_name : String
  conflict_type : String
  embedding : Option (List Rat)
  deriving DecidableEq

/-- The committed state of the `events` table, keyed by event id. -/
def EventsDB : Type := List (Nat × EventRow)

instance : DecidableEq EventsDB := by
  unfold EventsDB
  infer_instance

/-- `SELECT ... FROM events WHERE id = %s` (first match). -/
def dbLookup (db : EventsDB) (eid : Nat) : Option EventRow :=
  match db with
  | [] => none
  | (k, row) :: rest => if k = eid then some row else dbLookup rest eid

/-- The staged effect of `UPDATE events SET embedding = %s WHERE id = %s`. -/
def dbSetEmbedding (db : EventsDB) (eid : Nat) (emb : List Rat) : EventsDB :=
  db.map (fun p =>
    if p.1 = eid then (p.1, { p.2 with embedding := some emb }) else p)

/-- A psycopg2 connection: the committed table state plus the staged
(uncommitted) state seen through the connection's cursor.  `commit` publishes
the staged state; `rollback` discards it. -/
structure PgConn where
  committed : EventsDB
  staged : EventsDB
  deriving DecidableEq

def pgConnect (db : EventsDB) : PgConn := ⟨db, db⟩

def pgExec (c : PgConn) (eid : Nat) (emb : List Rat) : PgConn :=
  ⟨c.committed, dbSetEmbedding c.staged eid emb⟩

def pgCommit (c : PgConn) : PgConn := ⟨c.staged, c.staged⟩

def pgRollback (c : PgConn) : PgConn := ⟨c.committed, c.committed⟩

/-- `' | '.join(filter(None, text_parts))`: empty parts are dropped by
`filter(None, ...)`, then the rest are joined with the fixed delimiter. -/
def joinParts (parts : List String) : String :=
  String.intercalate " | " (parts.filter (fun s => s ≠ ""))

/-- The `text_parts` assembly of `process_event_embedding`: headline, summary,
space-joined actors (empty when the column is NULL or the list empty),
location and conflict type. -/
def combinedText (row : EventRow) : String :=
  joinParts [row.enhanced_headline, row.summary,
    (match row.primary_actors with
     | some actors => String.intercalate " " actors
     | none => ""),
    row.location_name, row.conflict_type]

/-- `VectorWorker.process_event_embedding(event_id)`: fetch the row, embed the
combined text, stage the single UPDATE and commit.  The returned state is the
committed database after the call: a missing event returns `False` without
writing; an exception (the embedding oracle returning `none`) triggers
`conn.rollback()`, so the committed state is untouched and `False` is
returned. -/
def process_event_embedding (encode : String → Option (List Rat))
    (db : EventsDB) (eid : Nat) : Bool × EventsDB :=
  let c := pgConnect db
  match dbLookup c.staged eid with
  | none => (false, c.committed)
  | some row =>
    match generate_embedding encode (combinedText row) with
    | none => (false, (pgRollback c).committed)
    | some emb => (true, (pgCommit (pgExec c eid emb)).committed)

/-- `VectorWorker.process_batch_embeddings(event_ids)`: process the events in
order, one at a time, collecting `{'event_id': ..., 'success': ...}` results
and threading the database state. -/
def process_batch_embeddings (encode : String → Option (List Rat))
    (db : EventsDB) : List Nat → List (Nat × Bool) × EventsDB
  | [] => ([], db)
  | eid :: rest =>
    let r := process_event_embedding encode db eid
    let rs := process_batch_embeddings encode r.2 rest
    ((eid, r.1) :: rs.1, rs.2)

theorem batch_ids_map (encode : String → Option (List Rat)) :
    ∀ (ids : List Nat) (db : EventsDB),
      (process_batch_embeddings encode db ids).1.map Prod.fst = ids := by
  intro ids
  induction ids with
  | nil => intro db; rfl
  | cons x xs ih =>
    intro db
    show x :: (process_batch_embeddings encode
        (process_event_embedding encode db x).2 xs).1.map Prod.fst = x :: xs
    rw [ih]

/-- Claim C6: when processing a single event fails, the committed database is
unchanged (the transaction was rolled back) and failure is reported; the batch
processes the head and then the tail against the resulting state; a failing
head leaves the tail's processing exactly as if the head had never run; and
the batch records one success flag per input event, in order. -/
theorem c6_rollback_and_batch_isolation (encode : String → Option (List Rat))
    (db : EventsDB) (eid : Nat) (rest : List Nat) :
    ((process_event_embedding encode db eid).1 = false →
      (process_event_embedding encode db eid).2 = db) ∧
    (process_batch_embeddings encode db (eid :: rest)).1 =
      (eid, (process_event_embedding encode db eid).1) ::
        (process_batch_embeddings encode (process_event_embedding encode db eid).2
          rest).1 ∧
    ((process_event_embedding encode db eid).1 = false →
      process_batch_embeddings encode db (eid :: rest) =
        ((eid, false) :: (process_batch_embeddings encode db rest).1,
          (process_batch_embeddings encode db rest).2)) ∧
    (∀ ids : List Nat,
      (process_batch_embeddings encode db ids).1.map Prod.fst = ids) := by
  have hfail : (process_event_embedding encode db eid).1 = false →
      (process_event_embedding encode db eid).2 = db := by
    intro hf
    unfold process_event_embedding pgConnect pgRollback pgCommit pgExec at hf ⊢
    cases hdb : dbLookup db eid with
    | none => simp [hdb]
    | some row =>
      cases hemb : generate_embedding encode (combinedText row) with
      | none => simp [hdb, hemb]
      | some emb => simp [hdb, hemb] at hf
  refine ⟨hfail, rfl, ?_, ?_⟩
  · intro hf
    have hdb := hfail hf
    show ((eid, (process_event_embedding encode db eid).1) ::
        (process_batch_embeddings encode (process_event_embedding encode db eid).2
          rest).1,
      (process_batch_embeddings encode (process_event_embedding encode db eid).2
          rest).2) = _
    rw [hf, hdb]
  · intro ids
    exact batch_ids_map encode ids db

/-- Concrete witness for C6: a two-row table and an embedding oracle that
always raises, so processing the first event fails and rolls back. -/
theorem c6_rollback_and_batch_isolation_witness :
    ((process_event_embedding (fun _ => none)
        [(1, ⟨"h", "s", none, "loc", "war", none⟩)] 1).1 = false →
      (process_event_embedding (fun _ => none)
        [(1, ⟨"h", "s", none, "loc", "war", none⟩)] 1).2 =
        [(1, ⟨"h", "s", none, "loc", "war", none⟩)]) ∧
    (process_batch_embeddings (fun _ => none)
        [(1, ⟨"h", "s", none, "loc", "war", none⟩)] [1, 2]).1 =
      (1, (process_event_embedding (fun _ => none)
          [(1, ⟨"h", "s", none, "loc", "war", none⟩)] 1).1) ::
        (process_batch_embeddings (fun _ => none)
          (process_event_embedding (fun _ => none)
            [(1, ⟨"h", "s", none, "loc", "war", none⟩)] 1).2 [2]).1 ∧
    ((process_event_embedding (fun _ => none)
        [(1, ⟨"h", "s", none, "loc", "war", none⟩)] 1).1 = false →
      process_batch_embeddings (fun _ => none)
          [(1, ⟨"h", "s", none, "loc", "war", none⟩)] [1, 2] =
        ((1, false) :: (process_batch_embeddings (fun _ => none)
            [(1, ⟨"h", "s", none, "loc", "war", none⟩)] [2]).1,
          (process_batch_embeddings (fun _ => none)
            [(1, ⟨"h", "s", none, "loc", "war", none⟩)] [2]).2)) ∧
    (∀ ids : List Nat,
      (process_batch_embeddings (fun _ => none)
        [(1, ⟨"h", "s", none, "loc", "war", none⟩)] ids).1.map Prod.fst = ids) :=
  c6_rollback_and_batch_isolation (fun _ => none)
    [(1, ⟨"h", "s", none, "loc", "war", none⟩)] 1 [2]

/- ------------------------------------------------------------------ -/
/- scripts/cluster.py : process_event_data                            -/
/- ------------------------------------------------------------------ -/

/-- Python `str.strip(chars)`: remove all leading and trailing characters
belonging to `chars` (used as `embedding_str.strip('[]')`). -/
def pyCharStrip (chars : List Char) (s : List Char) : List Char :=
  ((s.dropWhile (fun c => c ∈ chars)).reverse.dropWhile (fun c => c ∈ chars)).reverse

/-- Python `str.split(sep)` for a one-character separator; like Python,
splitting the empty string yields `[[]]` (one empty piece). -/
def pySplit (sep : Char) : List Char → List (List Char)
  | [] => [[]]
  | c :: rest =>
    match pySplit sep rest with
    | [] => [[c]]
    | r :: rs => if c = sep then [] :: r :: rs else (c :: r) :: rs

/-- Value of a most-significant-first digit string. -/
def digitsToNat (l : List Char) : Nat :=
  l.foldl (fun a c => 10 * a + (c.toNat - 48)) 0

/-- CPython `float(x)` on the grammar fragment reachable from serialized
numeric arrays: optional sign, then digits with an optional fractional part;
the empty string (and any other malformed piece) raises `ValueError`,
modelled as `none`. -/
def parseUnsignedFloat (s : List Char) : Option Rat :=
  let ip := s.takeWhile Char.isDigit
  let rest := s.dropWhile Char.isDigit
  match rest with
  | [] => if ip.isEmpty then none else some (digitsToNat ip : Rat)
  | c :: frac =>
    if c = '.' ∧ frac.all Char.isDigit ∧ (ip ≠ [] ∨ frac ≠ []) then
      some ((digitsToNat ip : Rat) + (digitsToNat frac : Rat) / (10 : Rat) ^ frac.length)
    else none

/-- `float(x)` with the optional leading sign. -/
def parsePyFloat (s : List Char) : Option Rat :=
  match s with
  | [] => none
  | c :: rest =>
    if c = '-' then (parseUnsignedFloat rest).map (fun q => -q)
    else if c = '+' then parseUnsignedFloat rest
    else parseUnsignedFloat (c :: rest)

/-- Lines 77-79 of `cluster.py`:
`embedding_str = event['embedding'].strip('[]')` followed by
`[float(x) for x in embedding_str.split(',')]`; a `ValueError` from any
`float(x)` aborts the computation (`none`). -/
def parsePgArray (s : List Char) : Option (List Rat) :=
  (pySplit ',' (pyCharStrip ['[', ']'] s)).mapM parsePyFloat

/-- One element of the `event_data` list: an id and an embedding that is
either a string (`Sum.inl`, a character list) or a plain numeric list
(`Sum.inr`), mirroring the `isinstance(event['embedding'], str)` test. -/
structure EventInput (α : Type) where
  id : α
  embedding : Sum (List Char) (List Rat)

/-- The per-event embedding branch of `process_event_data`. -/
def parseEmbedding : Sum (List Char) (List Rat) → Option (List Rat)
  | Sum.inl s => parsePgArray s
  | Sum.inr v => some v

/-- `process_event_data(event_data)`: collect the ids and the parsed
embedding of every record; an unparsable embedding raises, aborting the whole
call with no partial output (`none`). -/
def process_event_data {α : Type} (event_data : List (EventInput α)) :
    Option (List α × List (List Rat)) :=
  (event_data.mapM
    (fun e => (parseEmbedding e.embedding).map (fun v => (e.id, v)))).map
    (fun l => (l.map Prod.fst, l.map Prod.snd))

/-- An exact decimal `mant / 10 ^ fracDigits`: the form in which numbers
occur in a serialized numeric array (`mant = 15`, `fracDigits = 1` prints as
"1.5"). -/
structure Decimal where
  mant : Int
  fracDigits : Nat
  deriving DecidableEq

/-- Rational value of a decimal. -/
def Decimal.toRat (d : Decimal) : Rat :=
  (d.mant : Rat) / (10 : Rat) ^ d.fracDigits

/-- Character for a decimal digit value. -/
def digitChar (n : Nat) : Char := Char.ofNat (48 + n)

/-- Digits of `n`, most significant first, accumulated into `acc`; the fuel
is an upper bound on `n`, which dominates its digit count. -/
def natDigitsGo : Nat → Nat → List Char → List Char
  | 0, _, acc => acc
  | fuel + 1, n, acc =>
    if n = 0 then acc else natDigitsGo fuel (n / 10) (digitChar (n % 10) :: acc)

/-- Decimal digit string of a natural number. -/
def natDigits (n : Nat) : List Char :=
  if n = 0 then ['0'] else natDigitsGo n n []

/-- Digit string left-padded with zeros to at least `minLen` characters. -/
def natDigitsPadded (n minLen : Nat) : List Char :=
  List.replicate (minLen - (natDigits n).length) '0' ++ natDigits n

/-- Unsigned decimal rendering of `a / 10 ^ e`: plain digits when `e = 0`,
otherwise the padded digit string of `a` with a point inserted `e` places
from the right. -/
def decimalBody (a e : Nat) : List Char :=
  if e = 0 then natDigits a
  else
    (natDigitsPadded a (e + 1)).take ((natDigitsPadded a (e + 1)).length - e) ++
      '.' :: (natDigitsPadded a (e + 1)).drop ((natDigitsPadded a (e + 1)).length - e)

/-- Decimal rendering of a `Decimal`: sign, integer digits and, when
`fracDigits > 0`, a point followed by exactly `fracDigits` digits. -/
def Decimal.toChars (d : Decimal) : List Char :=
  (if d.mant < 0 then ['-'] else []) ++ decimalBody d.mant.natAbs d.fracDigits

/-- Comma-separated concatenation of rendered numbers. -/
def joinComma : List (List Char) → List Char
  | [] => []
  | [p] => p
  | p :: q :: rest => p ++ ',' :: joinComma (q :: rest)

/-- The stringified bracketed form of a numeric list (the serialized array
literal the spec describes, e.g. "[1.0,2.5]"). -/
def stringifyEmbedding (v : List Decimal) : List Char :=
  '[' :: (joinComma (v.map Decimal.toChars) ++ [']'])

theorem foldlDigits_from (l : List Char) (s : Nat) :
    l.foldl (fun a c => 10 * a + (c.toNat - 48)) s =
      s * 10 ^ l.length + l.foldl (fun a c => 10 * a + (c.toNat - 48)) 0 := by
  induction l generalizing s with
  | nil => simp
  | cons c rest ih =>
    simp only [List.foldl_cons]
    rw [ih (10 * s + (c.toNat - 48)), ih (10 * 0 + (c.toNat - 48))]
    simp only [List.length_cons, pow_succ]
    ring

theorem digitsToNat_cons (c : Char) (rest : List Char) :
    digitsToNat (c :: rest) =
      (c.toNat - 48) * 10 ^ rest.length + digitsToNat rest := by
  unfold digitsToNat
  simp only [List.foldl_cons]
  rw [foldlDigits_from]
  ring

theorem digitsToNat_append (a b : List Char) :
    digitsToNat (a ++ b) = digitsToNat a * 10 ^ b.length + digitsToNat b := by
  unfold digitsToNat
  rw [List.foldl_append, foldlDigits_from]

theorem digitsToNat_replicate_zero (k : Nat) :
    digitsToNat (List.replicate k '0') = 0 := by
  induction k with
  | zero => rfl
  | succ n ih =>
    rw [List.replicate_succ, digitsToNat_cons, ih]
    simp [show ('0'.toNat - 48) = 0 from rfl]

theorem digitChar_isDigit : ∀ r : Nat, r < 10 → (digitChar r).isDigit = true := by
  decide

theorem digitChar_toNat : ∀ r : Nat, r < 10 → (digitChar r).toNat - 48 = r := by
  decide

theorem natDigitsGo_val : ∀ (fuel n : Nat) (acc : List Char), n ≤ fuel →
    digitsToNat (natDigitsGo fuel n acc) = n * 10 ^ acc.length + digitsToNat acc := by
  intro fuel
  induction fuel with
  | zero =>
    intro n acc h
    have hn : n = 0 := Nat.le_zero.mp h
    simp [natDigitsGo, hn]
  | succ fuel ih =>
    intro n acc h
    by_cases hn : n = 0
    · simp [natDigitsGo, hn]
    · simp only [natDigitsGo, if_neg hn]
      have hdiv : n / 10 ≤ fuel := by
        have h1 : n / 10 < n := Nat.div_lt_self (Nat.pos_of_ne_zero hn) (by norm_num)
        omega
      rw [ih (n / 10) (digitChar (n % 10) :: acc) hdiv, digitsToNat_cons,
        digitChar_toNat _ (Nat.mod_lt n (by norm_num))]
      simp only [List.length_cons, pow_succ]
      have key : n / 10 * (10 ^ acc.length * 10) + n % 10 * 10 ^ acc.length =
          n * 10 ^ acc.length := by
        have h10 : 10 * (n / 10) + n % 10 = n := Nat.div_add_mod n 10
        calc n / 10 * (10 ^ acc.length * 10) + n % 10 * 10 ^ acc.length
            = (10 * (n / 10) + n % 10) * 10 ^ acc.length := by ring
          _ = n * 10 ^ acc.length := by rw [h10]
      linarith [key]

theorem natDigits_val (n : Nat) : digitsToNat (natDigits n) = n := by
  unfold natDigits
  by_cases hn : n = 0
  · subst hn; rfl
  · rw [if_neg hn, natDigitsGo_val n n [] le_rfl]
    simp [digitsToNat]

theorem natDigitsGo_chars : ∀ (fuel n : Nat) (acc : List Char),
    (∀ c ∈ acc, c.isDigit = true) →
    ∀ c ∈ natDigitsGo fuel n acc, c.isDigit = true := by
  intro fuel
  induction fuel with
  | zero =>
    intro n acc hacc
    simpa [natDigitsGo] using hacc
  | succ fuel ih =>
    intro n acc hacc
    by_cases hn : n = 0
    · simpa [natDigitsGo, hn] using hacc
    · simp only [natDigitsGo, if_neg hn]
      apply ih
      intro c hc
      rcases List.mem_cons.mp hc with h | h
      · subst h
        exact digitChar_isDigit _ (Nat.mod_lt n (by norm_num))
      · exact hacc c h

theorem natDigits_chars (n : Nat) : ∀ c ∈ natDigits n, c.isDigit = true := by
  unfold natDigits
  by_cases hn : n = 0
  · intro c hc
    rw [if_pos hn] at hc
    simp at hc
    subst hc
    decide
  · rw [if_neg hn]
    exact natDigitsGo_chars n n [] (by simp)

theorem natDigitsGo_length_le : ∀ (fuel n : Nat) (acc : List Char),
    acc.length ≤ (natDigitsGo fuel n acc).length := by
  intro fuel
  induction fuel with
  | zero => intro n acc; simp [natDigitsGo]
  | succ fuel ih =>
    intro n acc
    by_cases hn : n = 0
    · simp [natDigitsGo, hn]
    · simp only [natDigitsGo, if_neg hn]
      have h := ih (n / 10) (digitChar (n % 10) :: acc)
      simp only [List.length_cons] at h
      omega

theorem natDigits_length_pos (n : Nat) : 0 < (natDigits n).length := by
  unfold natDigits
  by_cases hn : n = 0
  · simp [hn]
  · rw [if_neg hn]
    obtain ⟨m, rfl⟩ : ∃ m, n = m + 1 := ⟨n - 1, by omega⟩
    simp only [natDigitsGo, if_neg hn]
    have h := natDigitsGo_length_le m ((m + 1) / 10) [digitChar ((m + 1) % 10)]
    simp only [List.length_cons, List.length_nil] at h
    omega

theorem natDigitsPadded_val (n minLen : Nat) :
    digitsToNat (natDigitsPadded n minLen) = n := by
  unfold natDigitsPadded
  rw [digitsToNat_append, digitsToNat_replicate_zero, natDigits_val]
  simp

theorem natDigitsPadded_chars (n minLen : Nat) :
    ∀ c ∈ natDigitsPadded n minLen, c.isDigit = true := by
  unfold natDigitsPadded
  intro c hc
  rcases List.mem_append.mp hc with h | h
  · have he := List.eq_of_mem_replicate h
    subst he
    decide
  · exact natDigits_chars n c h

theorem natDigitsPadded_length (n minLen : Nat) :
    minLen ≤ (natDigitsPadded n minLen).length := by
  unfold natDigitsPadded
  simp only [List.length_append, List.length_replicate]
  omega

theorem takeWhile_digits_all (l : List Char) (h : ∀ c ∈ l, c.isDigit = true) :
    l.takeWhile Char.isDigit = l ∧ l.dropWhile Char.isDigit = [] := by
  induction l with
  | nil => simp
  | cons c rest ih =>
    have hc : c.isDigit = true := h c (by simp)
    have hrest := ih (fun x hx => h x (by simp [hx]))
    simp [List.takeWhile_cons, List.dropWhile_cons, hc, hrest.1, hrest.2]

theorem span_digits_point (I F : List Char) (hI : ∀ c ∈ I, c.isDigit = true) :
    (I ++ '.' :: F).takeWhile Char.isDigit = I ∧
    (I ++ '.' :: F).dropWhile Char.isDigit = '.' :: F := by
  have hdot : ('.' : Char).isDigit = false := by decide
  induction I with
  | nil => simp [List.takeWhile_cons, List.dropWhile_cons, hdot]
  | cons c rest ih =>
    have hc : c.isDigit = true := hI c (by simp)
    have hrest := ih (fun x hx => hI x (by simp [hx]))
    simp [List.takeWhile_cons, List.dropWhile_cons, hc, hrest.1, hrest.2]

theorem parseUnsignedFloat_digits (D : List Char) (hne : D ≠ [])
    (hd : ∀ c ∈ D, c.isDigit = true) :
    parseUnsignedFloat D = some (digitsToNat D : Rat) := by
  obtain ⟨ht, hdw⟩ := takeWhile_digits_all D hd
  simp [parseUnsignedFloat, ht, hdw, hne]

theorem parseUnsignedFloat_point (I F : List Char) (hIne : I ≠ [])
    (hI : ∀ c ∈ I, c.isDigit = true) (hF : ∀ c ∈ F, c.isDigit = true) :
    parseUnsignedFloat (I ++ '.' :: F) =
      some ((digitsToNat I : Rat) + (digitsToNat F : Rat) / (10 : Rat) ^ F.length) := by
  obtain ⟨ht, hdw⟩ := span_digits_point I F hI
  have hFall : F.all Char.isDigit = true := List.all_eq_true.mpr (fun c hc => hF c hc)
  simp [parseUnsignedFloat, ht, hdw, hIne, hFall]

theorem decimalBody_parse (a e : Nat) :
    parseUnsignedFloat (decimalBody a e) = some ((a : Rat) / (10 : Rat) ^ e) := by
  unfold decimalBody
  by_cases he : e = 0
  · rw [if_pos he, parseUnsignedFloat_digits (natDigits a)
      (List.ne_nil_of_length_pos (natDigits_length_pos a)) (natDigits_chars a),
      natDigits_val, he]
    norm_num
  · rw [if_neg he]
    have hL : e + 1 ≤ (natDigitsPadded a (e + 1)).length := natDigitsPadded_length a (e + 1)
    have hIlen : 0 < ((natDigitsPadded a (e + 1)).take
        ((natDigitsPadded a (e + 1)).length - e)).length := by
      rw [List.length_take]
      omega
    have hIne : (natDigitsPadded a (e + 1)).take
        ((natDigitsPadded a (e + 1)).length - e) ≠ [] :=
      List.ne_nil_of_length_pos hIlen
    have hIdig : ∀ c ∈ (natDigitsPadded a (e + 1)).take
        ((natDigitsPadded a (e + 1)).length - e), c.isDigit = true :=
      fun c hc => natDigitsPadded_chars a (e + 1) c (List.take_subset _ _ hc)
    have hFdig : ∀ c ∈ (natDigitsPadded a (e + 1)).drop
        ((natDigitsPadded a (e + 1)).length - e), c.isDigit = true :=
      fun c hc => natDigitsPadded_chars a (e + 1) c (List.drop_subset _ _ hc)
    rw [parseUnsignedFloat_point _ _ hIne hIdig hFdig]
    have hFlen : ((natDigitsPadded a (e + 1)).drop
        ((natDigitsPadded a (e + 1)).length - e)).length = e := by
      rw [List.length_drop]
      omega
    have hsum : digitsToNat ((natDigitsPadded a (e + 1)).take
          ((natDigitsPadded a (e + 1)).length - e)) * 10 ^ e +
        digitsToNat ((natDigitsPadded a (e + 1)).drop
          ((natDigitsPadded a (e + 1)).length - e)) = a := by
      have happ := digitsToNat_append
        ((natDigitsPadded a (e + 1)).take ((natDigitsPadded a (e + 1)).length - e))
        ((natDigitsPadded a (e + 1)).drop ((natDigitsPadded a (e + 1)).length - e))
      rw [List.take_append_drop, natDigitsPadded_val, hFlen] at happ
      omega
    rw [hFlen]
    congr 1
    have hp : ((10 : Rat) ^ e) ≠ 0 := by positivity
    field_simp
    exact_mod_cast hsum

theorem decimalBody_head_digit (a e : Nat) :
    ∃ c rest, decimalBody a e = c :: rest ∧ c.isDigit = true := by
  unfold decimalBody
  by_cases he : e = 0
  · rw [if_pos he]
    obtain ⟨c, rest, hcr⟩ := List.exists_cons_of_ne_nil
      (List.ne_nil_of_length_pos (natDigits_length_pos a))
    refine ⟨c, rest, hcr, natDigits_chars a c ?_⟩
    rw [hcr]; simp
  · rw [if_neg he]
    have hL : e + 1 ≤ (natDigitsPadded a (e + 1)).length := natDigitsPadded_length a (e + 1)
    have hIlen : 0 < ((natDigitsPadded a (e + 1)).take
        ((natDigitsPadded a (e + 1)).length - e)).length := by
      rw [List.length_take]
      omega
    obtain ⟨c, rest, hcr⟩ := List.exists_cons_of_ne_nil
      (List.ne_nil_of_length_pos hIlen)
    have hcmem : c ∈ (natDigitsPadded a (e + 1)).take
        ((natDigitsPadded a (e + 1)).length - e) := by
      rw [hcr]; simp
    exact ⟨c, rest ++ '.' :: (natDigitsPadded a (e + 1)).drop
      ((natDigitsPadded a (e + 1)).length - e), by rw [hcr]; rfl,
      natDigitsPadded_chars a (e + 1) c (List.take_subset _ _ hcmem)⟩

theorem decimalBody_ne_nil (a e : Nat) : decimalBody a e ≠ [] := by
  obtain ⟨c, rest, hcr, _⟩ := decimalBody_head_digit a e
  rw [hcr]
  simp

theorem parsePyFloat_not_sign (c : Char) (rest : List Char) (h1 : ¬ c = '-')
    (h2 : ¬ c = '+') : parsePyFloat (c :: rest) = parseUnsignedFloat (c :: rest) := by
  simp [parsePyFloat, h1, h2]

theorem parsePyFloat_decimalBody (a e : Nat) :
    parsePyFloat (decimalBody a e) = some ((a : Rat) / (10 : Rat) ^ e) := by
  obtain ⟨c, rest, hcr, hdig⟩ := decimalBody_head_digit a e
  have h1 : ¬ c = '-' := by intro h; rw [h] at hdig; exact absurd hdig (by decide)
  have h2 : ¬ c = '+' := by intro h; rw [h] at hdig; exact absurd hdig (by decide)
  rw [hcr, parsePyFloat_not_sign c rest h1 h2, ← hcr, decimalBody_parse]

theorem parsePyFloat_toChars (d : Decimal) :
    parsePyFloat d.toChars = some d.toRat := by
  rcases d with ⟨m, e⟩
  unfold Decimal.toChars Decimal.toRat
  by_cases hm : m < 0
  · rw [if_pos hm]
    have hstep : parsePyFloat (['-'] ++ decimalBody m.natAbs e) =
        (parseUnsignedFloat (decimalBody m.natAbs e)).map (fun q => -q) := by
      simp [parsePyFloat]
    rw [hstep, decimalBody_parse]
    simp only [Option.map_some']
    congr 1
    have h3 : ((m.natAbs : Nat) : Int) = -m := by omega
    have h2 : ((m.natAbs : Nat) : Rat) = -(m : Rat) := by
      calc ((m.natAbs : Nat) : Rat) = (((m.natAbs : Nat) : Int) : Rat) := by
            rw [Int.cast_natCast]
        _ = ((-m : Int) : Rat) := by rw [h3]
        _ = -(m : Rat) := by push_cast; ring
    rw [h2]
    ring
  · rw [if_neg hm]
    rw [List.nil_append, parsePyFloat_decimalBody]
    congr 1
    have h3 : ((m.natAbs : Nat) : Int) = m := by omega
    have h2 : ((m.natAbs : Nat) : Rat) = (m : Rat) := by
      calc ((m.natAbs : Nat) : Rat) = (((m.natAbs : Nat) : Int) : Rat) := by
            rw [Int.cast_natCast]
        _ = ((m : Int) : Rat) := by rw [h3]
        _ = (m : Rat) := rfl
    rw [h2]

theorem decimalBody_chars (a e : Nat) :
    ∀ c ∈ decimalBody a e, c.isDigit = true ∨ c = '.' := by
  unfold decimalBody
  by_cases he : e = 0
  · rw [if_pos he]
    intro c hc
    exact Or.inl (natDigits_chars a c hc)
  · rw [if_neg he]
    intro c hc
    rcases List.mem_append.mp hc with h | h
    · exact Or.inl (natDigitsPadded_chars a (e + 1) c (List.take_subset _ _ h))
    · rcases List.mem_cons.mp h with h2 | h2
      · exact Or.inr h2
      · exact Or.inl (natDigitsPadded_chars a (e + 1) c (List.drop_subset _ _ h2))

theorem toChars_chars (d : Decimal) :
    ∀ c ∈ d.toChars, c.isDigit = true ∨ c = '.' ∨ c = '-' := by
  rcases d with ⟨m, e⟩
  unfold Decimal.toChars
  intro c hc
  rcases List.mem_append.mp hc with h | h
  · by_cases hm : m < 0
    · rw [if_pos hm] at h
      simp at h
      subst h
      exact Or.inr (Or.inr rfl)
    · rw [if_neg hm] at h
      simp at h
  · rcases decimalBody_chars m.natAbs e c h with h2 | h2
    · exact Or.inl h2
    · exact Or.inr (Or.inl h2)

theorem toChars_ne_nil (d : Decimal) : d.toChars ≠ [] := by
  rcases d with ⟨m, e⟩
  unfold Decimal.toChars
  intro h
  rcases List.append_eq_nil.mp h with ⟨_, h2⟩
  exact decimalBody_ne_nil m.natAbs e h2

theorem toChars_no_specials (d : Decimal) :
    ∀ c ∈ d.toChars, ¬ (c = '[' ∨ c = ']') ∧ ¬ c = ',' := by
  intro c hc
  rcases toChars_chars d c hc with h | h | h
  · constructor
    · intro habs
      rcases habs with h2 | h2 <;> rw [h2] at h <;> exact absurd h (by decide)
    · intro h2
      rw [h2] at h
      exact absurd h (by decide)
  · subst h; exact ⟨by decide, by decide⟩
  · subst h; exact ⟨by decide, by decide⟩

theorem joinComma_chars (pieces : List (List Char)) :
    ∀ c ∈ joinComma pieces, (∃ p ∈ pieces, c ∈ p) ∨ c = ',' := by
  induction pieces with
  | nil => simp [joinComma]
  | cons p ps ih =>
    cases ps with
    | nil =>
      intro c hc
      exact Or.inl ⟨p, by simp, by simpa [joinComma] using hc⟩
    | cons q qs =>
      intro c hc
      simp only [joinComma] at hc
      rcases List.mem_append.mp hc with h | h
      · exact Or.inl ⟨p, by simp, h⟩
      · rcases List.mem_cons.mp h with h2 | h2
        · exact Or.inr h2
        · rcases ih c h2 with ⟨r, hr, hcr⟩ | h3
          · exact Or.inl ⟨r, by simp [hr], hcr⟩
          · exact Or.inr h3

theorem pySplit_ne_nil (sep : Char) (l : List Char) : pySplit sep l ≠ [] := by
  cases l with
  | nil => simp [pySplit]
  | cons c rest =>
    simp only [pySplit]
    cases h : pySplit sep rest with
    | nil => simp
    | cons r rs => by_cases hc : c = sep <;> simp [hc]

theorem pySplit_no_sep (sep : Char) (a : List Char) (h : ∀ c ∈ a, ¬ c = sep) :
    pySplit sep a = [a] := by
  induction a with
  | nil => rfl
  | cons c rest ih =>
    have hc : ¬ c = sep := h c (by simp)
    have hrest : pySplit sep rest = [rest] := ih (fun x hx => h x (by simp [hx]))
    simp only [pySplit, hrest]
    simp [hc]

theorem pySplit_append_sep (sep : Char) (a b : List Char) (h : ∀ c ∈ a, ¬ c = sep) :
    pySplit sep (a ++ sep :: b) = a :: pySplit sep b := by
  induction a with
  | nil =>
    show pySplit sep (sep :: b) = [] :: pySplit sep b
    cases hb : pySplit sep b with
    | nil => exact absurd hb (pySplit_ne_nil sep b)
    | cons r rs =>
      simp only [pySplit, hb]
      simp
  | cons c rest ih =>
    have hc : ¬ c = sep := h c (by simp)
    have hrest := ih (fun x hx => h x (by simp [hx]))
    show pySplit sep (c :: (rest ++ sep :: b)) = (c :: rest) :: pySplit sep b
    simp only [pySplit, hrest]
    simp [hc]

theorem pySplit_joinComma (pieces : List (List Char)) (hne : pieces ≠ [])
    (h : ∀ p ∈ pieces, ∀ c ∈ p, ¬ c = ',') :
    pySplit ',' (joinComma pieces) = pieces := by
  induction pieces with
  | nil => exact absurd rfl hne
  | cons p ps ih =>
    cases ps with
    | nil =>
      show pySplit ',' (joinComma [p]) = [p]
      simp only [joinComma]
      exact pySplit_no_sep ',' p (h p (by simp))
    | cons q qs =>
      show pySplit ',' (p ++ ',' :: joinComma (q :: qs)) = p :: q :: qs
      rw [pySplit_append_sep ',' p _ (h p (by simp))]
      rw [ih (by simp) (fun r hr c hc => h r (by simp [hr]) c hc)]

theorem dropWhile_no_mem (p : Char → Bool) (xs ys : List Char) (hne : xs ≠ [])
    (h : ∀ c ∈ xs, p c = false) :
    (xs ++ ys).dropWhile p = xs ++ ys := by
  cases xs with
  | nil => exact absurd rfl hne
  | cons c rest =>
    have hc : p c = false := h c (by simp)
    simp [List.dropWhile_cons, hc]

theorem pyCharStrip_wrap (xs : List Char) (hne : xs ≠ [])
    (h : ∀ c ∈ xs, ¬ (c = '[' ∨ c = ']')) :
    pyCharStrip ['[', ']'] ('[' :: (xs ++ [']'])) = xs := by
  unfold pyCharStrip
  have hmem : ∀ c ∈ xs, (decide (c ∈ ['[', ']']) : Bool) = false := by
    intro c hc
    simpa using h c hc
  have h1 : ('[' :: (xs ++ [']'])).dropWhile (fun c => decide (c ∈ ['[', ']'])) =
      xs ++ [']'] := by
    rw [List.dropWhile_cons]
    simp only [show (decide ('[' ∈ ['[', ']']) : Bool) = true from by decide, if_true]
    exact dropWhile_no_mem _ xs [']'] hne hmem
  rw [h1]
  have h2 : (xs ++ [']']).reverse = ']' :: xs.reverse := by simp
  rw [h2, List.dropWhile_cons]
  simp only [show (decide (']' ∈ ['[', ']']) : Bool) = true from by decide, if_true]
  have h3 : xs.reverse.dropWhile (fun c => decide (c ∈ ['[', ']'])) = xs.reverse := by
    have := dropWhile_no_mem (fun c => decide (c ∈ ['[', ']'])) xs.reverse []
      (by simpa using hne) (fun c hc => hmem c (List.mem_reverse.mp hc))
    simpa using this
  rw [h3, List.reverse_reverse]

theorem mapM_parse_toChars (v : List Decimal) :
    (v.map Decimal.toChars).mapM parsePyFloat = some (v.map Decimal.toRat) := by
  induction v with
  | nil => rfl
  | cons d rest ih =>
    simp only [List.map_cons, List.mapM_cons, parsePyFloat_toChars, ih]
    rfl

theorem parsePgArray_stringify (v : List Decimal) (hv : v ≠ []) :
    parsePgArray (stringifyEmbedding v) = some (v.map Decimal.toRat) := by
  unfold parsePgArray stringifyEmbedding
  have hjoin_ne : joinComma (v.map Decimal.toChars) ≠ [] := by
    cases v with
    | nil => exact absurd rfl hv
    | cons d rest =>
      cases rest with
      | nil =>
        simp only [List.map_cons, List.map_nil, joinComma]
        exact toChars_ne_nil d
      | cons d2 rest2 =>
        simp only [List.map_cons, joinComma]
        intro habs
        rcases List.append_eq_nil.mp habs with ⟨_, h2⟩
        simp at h2
  have hjoin_chars : ∀ c ∈ joinComma (v.map Decimal.toChars),
      ¬ (c = '[' ∨ c = ']') := by
    intro c hc
    rcases joinComma_chars (v.map Decimal.toChars) c hc with ⟨p, hp, hcp⟩ | h2
    · obtain ⟨d, _, rfl⟩ := List.mem_map.mp hp
      exact (toChars_no_specials d c hcp).1
    · subst h2
      decide
  rw [pyCharStrip_wrap _ hjoin_ne hjoin_chars]
  rw [pySplit_joinComma (v.map Decimal.toChars)
    (by simpa using hv)
    (by
      intro p hp c hc
      obtain ⟨d, _, rfl⟩ := List.mem_map.mp hp
      exact (toChars_no_specials d c hc).2)]
  exact mapM_parse_toChars v

theorem process_event_data_singleton {α : Type} (e : EventInput α) :
    process_event_data [e] =
      (parseEmbedding e.embedding).map (fun v => ([e.id], [v])) := by
  unfold process_event_data
  cases hp : parseEmbedding e.embedding <;>
    simp [List.mapM, List.mapM.loop, hp]

/-- Counterexample to claim C5 as stated over every numeric list: for the
empty list, the stringified bracketed form "[]" strips to the empty string,
which `split(',')` turns into one empty piece, and `float('')` raises — so
`process_event_data` aborts (`none`) — while the plain empty list is accepted
and yields `([0], [[]])`.  The two results differ. -/
theorem c5_stringified_roundtrip_counterexample :
    process_event_data [⟨(0 : Nat), Sum.inl (stringifyEmbedding [])⟩] = none ∧
    process_event_data [⟨(0 : Nat), Sum.inr ([] : List Rat)⟩] = some ([0], [[]]) ∧
    process_event_data [⟨(0 : Nat), Sum.inl (stringifyEmbedding [])⟩] ≠
      process_event_data [⟨(0 : Nat), Sum.inr ([] : List Rat)⟩] :=
  ⟨by decide, by decide, by decide⟩

/-- Claim C5 as amended: for every NON-empty numeric list (given via its
exact decimal components), `process_event_data` on a record whose embedding
field is the stringified bracketed form of the list yields exactly the same
(event_ids, vectors) result as on a record carrying the plain numeric list;
for the empty list the string form raises while the plain form succeeds. -/
theorem c5_stringified_roundtrip_amended {α : Type} (eid : α) (v : List Decimal)
    (hv : v ≠ []) :
    process_event_data [⟨eid, Sum.inl (stringifyEmbedding v)⟩] =
      process_event_data [⟨eid, Sum.inr (v.map Decimal.toRat)⟩] ∧
    process_event_data [⟨eid, Sum.inr (v.map Decimal.toRat)⟩] =
      some ([eid], [v.map Decimal.toRat]) := by
  have h := parsePgArray_stringify v hv
  have h1 := process_event_data_singleton ⟨eid, Sum.inl (stringifyEmbedding v)⟩
  have h2 := process_event_data_singleton ⟨eid, Sum.inr (v.map Decimal.toRat)⟩
  constructor
  · rw [h1, h2]
    simp only [parseEmbedding, h]
  · rw [h2]
    simp only [parseEmbedding, Option.map_some']

/-- Concrete witness for C5's amended statement: the list "[1.5,-2,3.05]". -/
theorem c5_stringified_roundtrip_amended_witness :
    (([⟨15, 1⟩, ⟨-2, 0⟩, ⟨305, 2⟩] : List Decimal) ≠ []) ∧
    (process_event_data [⟨(7 : Nat), Sum.inl
        (stringifyEmbedding [⟨15, 1⟩, ⟨-2, 0⟩, ⟨305, 2⟩])⟩] =
      process_event_data [⟨(7 : Nat), Sum.inr
        (([⟨15, 1⟩, ⟨-2, 0⟩, ⟨305, 2⟩] : List Decimal).map Decimal.toRat)⟩] ∧
    process_event_data [⟨(7 : Nat), Sum.inr
        (([⟨15, 1⟩, ⟨-2, 0⟩, ⟨305, 2⟩] : List Decimal).map Decimal.toRat)⟩] =
      some ([7], [([⟨15, 1⟩, ⟨-2, 0⟩, ⟨305, 2⟩] : List Decimal).map Decimal.toRat])) :=
  ⟨by decide,
   c5_stringified_roundtrip_amended 7 [⟨15, 1⟩, ⟨-2, 0⟩, ⟨305, 2⟩] (by decide)⟩
